import Mathlib

/-!
# Verification of the `counter-rs` Counter library

Shallow embedding of `src/lib.rs`. A `Counter<'a, T>` wraps a
`HashMap<&'a T, usize>`; we model the backing map as an association list
`List (T × Nat)` whose keys are pairwise distinct (the `NodupKeys`
predicate below captures the HashMap key-uniqueness invariant).
`HashMap::get` is modelled by `lookupC` (first matching key), in-place
entry mutation by structural recursion that rewrites the matching entry,
and iteration over a map by folding over the entry list.  Iteration
order of a HashMap is unspecified; every property proved below is about
the resulting key → count mapping, which is order-independent.
-/

namespace CounterRs

/-- The backing map of a `Counter`: entries of element and count,
modelling `HashMap<&'a T, usize>`. -/
abbrev CMap (T : Type) := List (T × Nat)

variable {T : Type} [DecidableEq T]

/-- `HashMap::get`: the count stored for key `k`, if any. -/
def lookupC : CMap T → T → Option Nat
  | [], _ => none
  | (a, v) :: rest, k => if a = k then some v else lookupC rest k

/-- The count of `k`, reading an absent key as `0`. -/
def cnt (m : CMap T) (k : T) : Nat := (lookupC m k).getD 0

/-- HashMap key-uniqueness: no key occurs in two entries. -/
def NodupKeys (m : CMap T) : Prop := (m.map Prod.fst).Nodup

/-- The data-model invariant of the spec: every stored count is positive. -/
def PosCounts (m : CMap T) : Prop := ∀ p ∈ m, 0 < p.2

instance (m : CMap T) : Decidable (NodupKeys m) :=
  List.nodupDecidable (m.map Prod.fst)

instance (m : CMap T) : Decidable (PosCounts m) :=
  inferInstanceAs (Decidable (∀ p ∈ m, 0 < p.2))

/-- `Counter::new`: the empty counter. -/
def newCounter (T : Type) : CMap T := []

/-- One step of `Counter::update`:
`let entry = self.map.entry(item).or_insert(0); *entry += 1;`. -/
def incr : CMap T → T → CMap T
  | [], k => [(k, 0 + 1)]
  | (a, v) :: rest, k => if a = k then (a, v + 1) :: rest else (a, v) :: incr rest k

/-- `Counter::update`: fold `incr` over the iterable. -/
def updateCounter (m : CMap T) (s : List T) : CMap T := s.foldl incr m

/-- `Counter::init`: `Counter::new()` followed by `update(iterable)`. -/
def initCounter (s : List T) : CMap T := updateCounter (newCounter T) s

/-- One step of `Counter::subtract`: if the key is present, decrement
when the count is positive, then remove the entry when the (possibly
untouched) count is zero.  In `Nat`, `v - 1 = 0` holds exactly when
`v ≤ 1`, which matches `remove = *entry == 0` in both branches of
`if *entry > 0`. -/
def subOne : CMap T → T → CMap T
  | [], _ => []
  | (a, v) :: rest, k =>
    if a = k then
      (if v - 1 = 0 then rest else (a, v - 1) :: rest)
    else (a, v) :: subOne rest k

/-- `Counter::subtract`: fold `subOne` over the iterable. -/
def subtractCounter (m : CMap T) (s : List T) : CMap T := s.foldl subOne m

/-- One step of `Add::add`:
`let entry = counter.map.entry(key).or_insert(0); *entry += *value;`. -/
def incrBy : CMap T → T → Nat → CMap T
  | [], k, v => [(k, 0 + v)]
  | (a, w) :: rest, k, v => if a = k then (a, w + v) :: rest else (a, w) :: incrBy rest k v

/-- `Add::add`: clone `self`, then fold over the entries of `rhs`. -/
def addCounter (c d : CMap T) : CMap T := d.foldl (fun acc p => incrBy acc p.1 p.2) c

/-- One step of `Sub::sub`: when the key is present, subtract when
`*entry >= *value`, otherwise mark for removal; afterwards also remove
when the count reached `0`. -/
def subBy : CMap T → T → Nat → CMap T
  | [], _, _ => []
  | (a, w) :: rest, k, v =>
    if a = k then
      (if v ≤ w then (if w - v = 0 then rest else (a, w - v) :: rest) else rest)
    else (a, w) :: subBy rest k v

/-- `Sub::sub`: clone `self`, then fold over the entries of `rhs`. -/
def subCounter (c d : CMap T) : CMap T := d.foldl (fun acc p => subBy acc p.1 p.2) c

/-- `BitAnd::bitand`: iterate the keys present in both operands and
insert `min(self[k], rhs[k])` into a fresh counter.  The key set
intersection is modelled by filtering `self`'s entries on membership in
`rhs`; inserting pairwise-distinct keys into the fresh map yields
exactly this entry list. -/
def bitandCounter (c d : CMap T) : CMap T :=
  c.filterMap fun p =>
    if (lookupC d p.1).isSome then some (p.1, min p.2 (cnt d p.1)) else none

/-- One step of `BitOr::bitor`:
`let entry = counter.map.entry(key).or_insert(0); *entry = max(*entry, *value);`. -/
def orBy : CMap T → T → Nat → CMap T
  | [], k, v => [(k, max 0 v)]
  | (a, w) :: rest, k, v => if a = k then (a, max w v) :: rest else (a, w) :: orBy rest k v

/-- `BitOr::bitor`: clone `self`, then fold over the entries of `rhs`. -/
def bitorCounter (c d : CMap T) : CMap T := d.foldl (fun acc p => orBy acc p.1 p.2) c

/-- Comparator of `most_common`: `|&(_, a), &(_, b)| b.cmp(a)`, i.e.
sort by count, descending. -/
def mcLE (p q : T × Nat) : Bool := decide (q.2 ≤ p.2)

/-- `Counter::most_common`: collect the entries into a vector and sort
by count, highest first (Rust `sort_by` is a stable merge sort). -/
def most_common (m : CMap T) : List (T × Nat) := m.mergeSort mcLE

/-- The number of occurrences of `x` in a list (multiplicity in the
input iterable). -/
def occCount (x : T) : List T → Nat
  | [] => 0
  | y :: rest => (if y = x then 1 else 0) + occCount x rest

/-! ## Basic lookup lemmas -/

theorem lookupC_eq_none_of_not_mem {m : CMap T} {k : T}
    (h : k ∉ m.map Prod.fst) : lookupC m k = none := by
  induction m with
  | nil => rfl
  | cons p rest ih =>
    obtain ⟨a, v⟩ := p
    simp only [List.map_cons, List.mem_cons] at h
    push_neg at h
    simp only [lookupC, if_neg (Ne.symm h.1)]
    exact ih h.2

theorem mem_of_lookupC_eq_some {m : CMap T} {k : T} {v : Nat}
    (h : lookupC m k = some v) : (k, v) ∈ m := by
  induction m with
  | nil => simp [lookupC] at h
  | cons p rest ih =>
    obtain ⟨a, w⟩ := p
    simp only [lookupC] at h
    by_cases hak : a = k
    · rw [if_pos hak] at h
      injection h with h
      subst hak; subst h
      exact List.mem_cons_self _ _
    · rw [if_neg hak] at h
      exact List.mem_cons_of_mem _ (ih h)

/-! ## `incr` / `update` lemmas -/

theorem lookupC_incr_self (m : CMap T) (k : T) :
    lookupC (incr m k) k = some (cnt m k + 1) := by
  induction m with
  | nil => simp [incr, lookupC, cnt]
  | cons p rest ih =>
    obtain ⟨a, v⟩ := p
    by_cases hak : a = k
    · subst hak
      simp [incr, lookupC, cnt]
    · simp only [incr, if_neg hak, lookupC, cnt]
      simpa [cnt, lookupC, if_neg hak] using ih

theorem lookupC_incr_ne (m : CMap T) {k x : T} (hxk : x ≠ k) :
    lookupC (incr m k) x = lookupC m x := by
  have hkx : k ≠ x := Ne.symm hxk
  induction m with
  | nil => simp [incr, lookupC, hkx]
  | cons p rest ih =>
    obtain ⟨a, v⟩ := p
    by_cases hak : a = k
    · subst hak
      simp [incr, lookupC, hkx]
    · by_cases hax : a = x
      · simp [incr, if_neg hak, lookupC, hax, hxk]
      · simp [incr, if_neg hak, lookupC, hax, ih]

/-- Lookup after adding `n` occurrences: helper combining form. -/
def addN : Option Nat → Nat → Option Nat
  | some v, n => some (v + n)
  | none, n => if n = 0 then none else some n

theorem lookupC_updateCounter (s : List T) (m : CMap T) (x : T) :
    lookupC (updateCounter m s) x = addN (lookupC m x) (occCount x s) := by
  induction s generalizing m with
  | nil =>
    simp only [updateCounter, List.foldl_nil, occCount]
    cases lookupC m x <;> simp [addN]
  | cons a s ih =>
    have hstep : updateCounter m (a :: s) = updateCounter (incr m a) s := rfl
    rw [hstep, ih]
    by_cases hxa : x = a
    · subst hxa
      rw [lookupC_incr_self]
      simp only [occCount, if_pos rfl]
      cases hm : lookupC m x <;> simp [cnt, hm, addN, Nat.add_comm, Nat.add_assoc,
        Nat.add_left_comm]
    · rw [lookupC_incr_ne m hxa]
      simp [occCount, Ne.symm hxa]

/-! ## `subOne` / `subtract` lemmas -/

theorem lookupC_subOne_ne (m : CMap T) {k x : T} (hxk : x ≠ k) :
    lookupC (subOne m k) x = lookupC m x := by
  induction m with
  | nil => rfl
  | cons p rest ih =>
    obtain ⟨a, v⟩ := p
    by_cases hak : a = k
    · subst hak
      by_cases hv : v - 1 = 0
      · simp [subOne, hv, lookupC, Ne.symm hxk]
      · simp [subOne, hv, lookupC, Ne.symm hxk]
    · by_cases hax : a = x
      · simp [subOne, if_neg hak, lookupC, hax, hxk]
      · simp [subOne, if_neg hak, lookupC, hax, ih]

theorem lookupC_subOne_self {m : CMap T} (hm : NodupKeys m) (k : T) :
    lookupC (subOne m k) k =
      (lookupC m k).bind (fun v => if v - 1 = 0 then none else some (v - 1)) := by
  induction m with
  | nil => rfl
  | cons p rest ih =>
    obtain ⟨a, v⟩ := p
    rw [NodupKeys, List.map_cons, List.nodup_cons] at hm
    by_cases hak : a = k
    · subst hak
      by_cases hv : v - 1 = 0
      · simp [subOne, hv, lookupC, lookupC_eq_none_of_not_mem hm.1]
      · simp [subOne, hv, lookupC]
    · simp [subOne, if_neg hak, lookupC, hak, ih hm.2]

theorem map_fst_subOne_sublist (m : CMap T) (k : T) :
    List.Sublist ((subOne m k).map Prod.fst) (m.map Prod.fst) := by
  induction m with
  | nil => simp [subOne]
  | cons p rest ih =>
    obtain ⟨a, v⟩ := p
    by_cases hak : a = k
    · subst hak
      by_cases hv : v - 1 = 0
      · simp only [subOne, if_pos rfl, if_pos hv, List.map_cons]
        exact List.Sublist.cons _ (List.Sublist.refl _)
      · simp only [subOne, if_pos rfl, if_neg hv, List.map_cons]
        exact List.Sublist.cons₂ _ (List.Sublist.refl _)
    · simp only [subOne, if_neg hak, List.map_cons]
      exact List.Sublist.cons₂ _ ih

theorem nodupKeys_subOne {m : CMap T} (hm : NodupKeys m) (k : T) :
    NodupKeys (subOne m k) :=
  List.Nodup.sublist (map_fst_subOne_sublist m k) hm

theorem mem_map_fst_incr {m : CMap T} {k x : T}
    (h : x ∈ (incr m k).map Prod.fst) : x ∈ m.map Prod.fst ∨ x = k := by
  induction m with
  | nil => simpa [incr] using h
  | cons p rest ih =>
    obtain ⟨a, v⟩ := p
    by_cases hak : a = k
    · subst hak
      simpa [incr] using Or.inl (by simpa [incr] using h)
    · simp only [incr, if_neg hak, List.map_cons, List.mem_cons] at h
      rcases h with h | h
      · exact Or.inl (by simp [h])
      · rcases ih h with h | h
        · exact Or.inl (by simp [h])
        · exact Or.inr h

theorem nodupKeys_incr {m : CMap T} (hm : NodupKeys m) (k : T) :
    NodupKeys (incr m k) := by
  induction m with
  | nil => simp [incr, NodupKeys]
  | cons p rest ih =>
    obtain ⟨a, v⟩ := p
    rw [NodupKeys, List.map_cons, List.nodup_cons] at hm
    by_cases hak : a = k
    · subst hak
      rw [NodupKeys, incr, if_pos rfl, List.map_cons, List.nodup_cons]
      exact hm
    · rw [NodupKeys, incr, if_neg hak, List.map_cons, List.nodup_cons]
      refine ⟨fun hmem => ?_, ih hm.2⟩
      rcases mem_map_fst_incr hmem with h | h
      · exact hm.1 h
      · exact hak h

theorem nodupKeys_updateCounter {m : CMap T} (hm : NodupKeys m) (s : List T) :
    NodupKeys (updateCounter m s) := by
  induction s generalizing m with
  | nil => exact hm
  | cons a s ih => exact ih (nodupKeys_incr hm a)

theorem nodupKeys_subtractCounter {m : CMap T} (hm : NodupKeys m) (s : List T) :
    NodupKeys (subtractCounter m s) := by
  induction s generalizing m with
  | nil => exact hm
  | cons a s ih => exact ih (nodupKeys_subOne hm a)

theorem addN_zero (o : Option Nat) : addN o 0 = o := by
  cases o <;> simp [addN]

/-- Processing an iterable `s` with `subtract`, starting from a state
that holds exactly `occCount x s` surplus occurrences of every `x` over
a base counter `c` with positive counts, lands back on `c`. -/
theorem subtract_restores (c : CMap T) (hc : PosCounts c) :
    ∀ (s : List T) (m : CMap T), NodupKeys m →
      (∀ x, lookupC m x = addN (lookupC c x) (occCount x s)) →
      ∀ x, lookupC (subtractCounter m s) x = lookupC c x := by
  intro s
  induction s with
  | nil =>
    intro m _ h x
    simpa [subtractCounter, occCount, addN_zero] using h x
  | cons a s ih =>
    intro m hm h x
    have hstep : subtractCounter m (a :: s) = subtractCounter (subOne m a) s := rfl
    rw [hstep]
    refine ih (subOne m a) (nodupKeys_subOne hm a) ?_ x
    intro y
    by_cases hya : y = a
    · subst hya
      rw [lookupC_subOne_self hm y]
      have hy := h y
      rw [occCount, if_pos rfl] at hy
      cases hcy : lookupC c y with
      | none =>
        rw [hcy] at hy
        rw [addN, if_neg (by omega)] at hy
        rw [hy]
        simp only [Option.some_bind, Nat.add_sub_cancel_left, addN]
      | some w =>
        rw [hcy] at hy
        rw [addN] at hy
        have hw : 0 < w := hc (y, w) (mem_of_lookupC_eq_some hcy)
        rw [hy]
        simp only [Option.some_bind, addN]
        rw [if_neg (by omega)]
        congr 1
        omega
    · rw [lookupC_subOne_ne m hya]
      have hy := h y
      rw [occCount, if_neg (Ne.symm hya)] at hy
      simpa using hy

/-! ## Claim C1 -/

/-- C1: a Counter built by `init(S)` maps each element `x` to exactly
the number of occurrences of `x` in `S` and contains no other keys, and
`init(S)` is `new()` followed by `update(S)`. -/
theorem C1_init_counts_occurrences (s : List T) (x : T) :
    lookupC (initCounter s) x =
      (if occCount x s = 0 then none else some (occCount x s)) ∧
    initCounter s = updateCounter (newCounter T) s := by
  refine ⟨?_, rfl⟩
  have h := lookupC_updateCounter s (newCounter T) x
  simpa [initCounter, newCounter, lookupC, addN] using h

/-! ## Claim C7 -/

/-- C7: for a Counter with the positive-count invariant, `update(S)`
followed by `subtract(S)` restores the prior mapping exactly. -/
theorem C7_update_then_subtract_identity (c : CMap T) (s : List T)
    (hpos : PosCounts c) (hnd : NodupKeys c) (x : T) :
    lookupC (subtractCounter (updateCounter c s) s) x = lookupC c x :=
  subtract_restores c hpos s (updateCounter c s)
    (nodupKeys_updateCounter hnd s) (fun y => lookupC_updateCounter s c y) x

theorem C7_witness :
    PosCounts [((1 : Nat), 2)] ∧ NodupKeys [((1 : Nat), 2)] ∧
      lookupC (subtractCounter (updateCounter [((1 : Nat), 2)] [1, 3, 1]) [1, 3, 1]) 3 =
        lookupC [((1 : Nat), 2)] 3 :=
  ⟨by decide, by decide,
    C7_update_then_subtract_identity [((1 : Nat), 2)] [1, 3, 1] (by decide) (by decide) 3⟩

/-! ## Positive-count invariant preservation -/

theorem posCounts_incr {m : CMap T} (hm : PosCounts m) (k : T) :
    PosCounts (incr m k) := by
  induction m with
  | nil =>
    intro p hp
    simp only [incr, List.mem_singleton] at hp
    subst hp
    simp
  | cons q rest ih =>
    obtain ⟨a, v⟩ := q
    have hrest : PosCounts rest := fun p hp => hm p (List.mem_cons_of_mem _ hp)
    intro p hp
    by_cases hak : a = k
    · rw [incr, if_pos hak] at hp
      rcases List.mem_cons.mp hp with h | h
      · subst h; simp
      · exact hrest p h
    · rw [incr, if_neg hak] at hp
      rcases List.mem_cons.mp hp with h | h
      · subst h; exact hm (a, v) (List.mem_cons_self _ _)
      · exact ih hrest p h

theorem posCounts_subOne {m : CMap T} (hm : PosCounts m) (k : T) :
    PosCounts (subOne m k) := by
  induction m with
  | nil => intro p hp; simp [subOne] at hp
  | cons q rest ih =>
    obtain ⟨a, v⟩ := q
    have hrest : PosCounts rest := fun p hp => hm p (List.mem_cons_of_mem _ hp)
    intro p hp
    by_cases hak : a = k
    · rw [subOne, if_pos hak] at hp
      by_cases hv : v - 1 = 0
      · rw [if_pos hv] at hp
        exact hrest p hp
      · rw [if_neg hv] at hp
        rcases List.mem_cons.mp hp with h | h
        · subst h; exact Nat.pos_of_ne_zero hv
        · exact hrest p h
    · rw [subOne, if_neg hak] at hp
      rcases List.mem_cons.mp hp with h | h
      · subst h; exact hm (a, v) (List.mem_cons_self _ _)
      · exact ih hrest p h

theorem posCounts_incrBy {m : CMap T} (hm : PosCounts m) {k : T} {v : Nat}
    (hv : 0 < v) : PosCounts (incrBy m k v) := by
  induction m with
  | nil =>
    intro p hp
    simp only [incrBy, List.mem_singleton] at hp
    subst hp
    simpa using hv
  | cons q rest ih =>
    obtain ⟨a, w⟩ := q
    have hrest : PosCounts rest := fun p hp => hm p (List.mem_cons_of_mem _ hp)
    intro p hp
    by_cases hak : a = k
    · rw [incrBy, if_pos hak] at hp
      rcases List.mem_cons.mp hp with h | h
      · subst h; exact Nat.lt_of_lt_of_le hv (Nat.le_add_left v w)
      · exact hrest p h
    · rw [incrBy, if_neg hak] at hp
      rcases List.mem_cons.mp hp with h | h
      · subst h; exact hm (a, w) (List.mem_cons_self _ _)
      · exact ih hrest p h

theorem posCounts_subBy {m : CMap T} (hm : PosCounts m) (k : T) (v : Nat) :
    PosCounts (subBy m k v) := by
  induction m with
  | nil => intro p hp; simp [subBy] at hp
  | cons q rest ih =>
    obtain ⟨a, w⟩ := q
    have hrest : PosCounts rest := fun p hp => hm p (List.mem_cons_of_mem _ hp)
    intro p hp
    by_cases hak : a = k
    · rw [subBy, if_pos hak] at hp
      by_cases hvw : v ≤ w
      · rw [if_pos hvw] at hp
        by_cases hw : w - v = 0
        · rw [if_pos hw] at hp
          exact hrest p hp
        · rw [if_neg hw] at hp
          rcases List.mem_cons.mp hp with h | h
          · subst h; exact Nat.pos_of_ne_zero hw
          · exact hrest p h
      · rw [if_neg hvw] at hp
        exact hrest p hp
    · rw [subBy, if_neg hak] at hp
      rcases List.mem_cons.mp hp with h | h
      · subst h; exact hm (a, w) (List.mem_cons_self _ _)
      · exact ih hrest p h

theorem posCounts_orBy {m : CMap T} (hm : PosCounts m) {k : T} {v : Nat}
    (hv : 0 < v) : PosCounts (orBy m k v) := by
  induction m with
  | nil =>
    intro p hp
    simp only [orBy, List.mem_singleton] at hp
    subst hp
    simpa using hv
  | cons q rest ih =>
    obtain ⟨a, w⟩ := q
    have hrest : PosCounts rest := fun p hp => hm p (List.mem_cons_of_mem _ hp)
    intro p hp
    by_cases hak : a = k
    · rw [orBy, if_pos hak] at hp
      rcases List.mem_cons.mp hp with h | h
      · subst h; exact Nat.lt_of_lt_of_le hv (Nat.le_max_right w v)
      · exact hrest p h
    · rw [orBy, if_neg hak] at hp
      rcases List.mem_cons.mp hp with h | h
      · subst h; exact hm (a, w) (List.mem_cons_self _ _)
      · exact ih hrest p h

theorem posCounts_updateCounter {m : CMap T} (hm : PosCounts m) (s : List T) :
    PosCounts (updateCounter m s) := by
  induction s generalizing m with
  | nil => exact hm
  | cons a s ih => exact ih (posCounts_incr hm a)

theorem posCounts_subtractCounter {m : CMap T} (hm : PosCounts m) (s : List T) :
    PosCounts (subtractCounter m s) := by
  induction s generalizing m with
  | nil => exact hm
  | cons a s ih => exact ih (posCounts_subOne hm a)

theorem posCounts_addCounter {c d : CMap T} (hc : PosCounts c)
    (hd : PosCounts d) : PosCounts (addCounter c d) := by
  induction d generalizing c with
  | nil => exact hc
  | cons p rest ih =>
    obtain ⟨k, v⟩ := p
    have hv : 0 < v := hd (k, v) (List.mem_cons_self _ _)
    have hrest : PosCounts rest := fun q hq => hd q (List.mem_cons_of_mem _ hq)
    exact ih (posCounts_incrBy hc hv) hrest

theorem posCounts_subCounter {c : CMap T} (hc : PosCounts c) (d : CMap T) :
    PosCounts (subCounter c d) := by
  induction d generalizing c with
  | nil => exact hc
  | cons p rest ih =>
    obtain ⟨k, v⟩ := p
    exact ih (posCounts_subBy hc k v)

theorem posCounts_bitorCounter {c d : CMap T} (hc : PosCounts c)
    (hd : PosCounts d) : PosCounts (bitorCounter c d) := by
  induction d generalizing c with
  | nil => exact hc
  | cons p rest ih =>
    obtain ⟨k, v⟩ := p
    have hv : 0 < v := hd (k, v) (List.mem_cons_self _ _)
    have hrest : PosCounts rest := fun q hq => hd q (List.mem_cons_of_mem _ hq)
    exact ih (posCounts_orBy hc hv) hrest

theorem posCounts_bitandCounter {c d : CMap T} (hc : PosCounts c)
    (hd : PosCounts d) : PosCounts (bitandCounter c d) := by
  intro p hp
  rw [bitandCounter, List.mem_filterMap] at hp
  obtain ⟨q, hq, hfq⟩ := hp
  by_cases hs : (lookupC d q.1).isSome
  · rw [if_pos hs] at hfq
    injection hfq with hfq
    subst hfq
    obtain ⟨b, hb⟩ := Option.isSome_iff_exists.mp hs
    have hqb : (q.1, b) ∈ d := mem_of_lookupC_eq_some hb
    have hb2 : 0 < b := hd (q.1, b) hqb
    have hq2 : 0 < q.2 := hc q hq
    simp only [cnt, hb, Option.getD_some]
    exact lt_min hq2 hb2
  · rw [if_neg hs] at hfq
    exact absurd hfq (by simp)

/-! ## Claim C2 -/

/-- C2: `new`, `init`, `update`, `subtract`, `add`, `sub`, `bitand` and
`bitor` all preserve the invariant that every stored count is strictly
positive (binary operators assuming both operands satisfy it). -/
theorem C2_invariant_preserved (c d : CMap T) (s : List T)
    (hc : PosCounts c) (hd : PosCounts d) :
    PosCounts (newCounter T) ∧ PosCounts (initCounter s) ∧
    PosCounts (updateCounter c s) ∧ PosCounts (subtractCounter c s) ∧
    PosCounts (addCounter c d) ∧ PosCounts (subCounter c d) ∧
    PosCounts (bitandCounter c d) ∧ PosCounts (bitorCounter c d) :=
  ⟨fun p hp => absurd hp (List.not_mem_nil p),
   posCounts_updateCounter (fun p hp => absurd hp (List.not_mem_nil p)) s,
   posCounts_updateCounter hc s,
   posCounts_subtractCounter hc s,
   posCounts_addCounter hc hd,
   posCounts_subCounter hc d,
   posCounts_bitandCounter hc hd,
   posCounts_bitorCounter hc hd⟩

theorem C2_witness :
    PosCounts [((1 : Nat), 2)] ∧ PosCounts [((1 : Nat), 1), (2, 3)] ∧
      (PosCounts (newCounter Nat) ∧ PosCounts (initCounter [5, 5]) ∧
       PosCounts (updateCounter [((1 : Nat), 2)] [5, 5]) ∧
       PosCounts (subtractCounter [((1 : Nat), 2)] [5, 5]) ∧
       PosCounts (addCounter [((1 : Nat), 2)] [(1, 1), (2, 3)]) ∧
       PosCounts (subCounter [((1 : Nat), 2)] [(1, 1), (2, 3)]) ∧
       PosCounts (bitandCounter [((1 : Nat), 2)] [(1, 1), (2, 3)]) ∧
       PosCounts (bitorCounter [((1 : Nat), 2)] [(1, 1), (2, 3)])) :=
  ⟨by decide, by decide,
    C2_invariant_preserved [((1 : Nat), 2)] [(1, 1), (2, 3)] [5, 5]
      (by decide) (by decide)⟩

/-! ## `incrBy` / `add` lemmas -/

theorem lookupC_incrBy_self (m : CMap T) (k : T) (v : Nat) :
    lookupC (incrBy m k v) k = some (cnt m k + v) := by
  induction m with
  | nil => simp [incrBy, lookupC, cnt]
  | cons p rest ih =>
    obtain ⟨a, w⟩ := p
    by_cases hak : a = k
    · subst hak
      simp [incrBy, lookupC, cnt]
    · simp only [incrBy, if_neg hak, lookupC, cnt]
      simpa [cnt, lookupC, if_neg hak] using ih

theorem lookupC_incrBy_ne (m : CMap T) (v : Nat) {k x : T} (hxk : x ≠ k) :
    lookupC (incrBy m k v) x = lookupC m x := by
  have hkx : k ≠ x := Ne.symm hxk
  induction m with
  | nil => simp [incrBy, lookupC, hkx]
  | cons p rest ih =>
    obtain ⟨a, w⟩ := p
    by_cases hak : a = k
    · subst hak
      simp [incrBy, lookupC, hkx]
    · by_cases hax : a = x
      · simp [incrBy, if_neg hak, lookupC, hax, hxk]
      · simp [incrBy, if_neg hak, lookupC, hax, ih]

/-- Pointwise count of a sum: `none` only when both sides are absent. -/
def addO : Option Nat → Option Nat → Option Nat
  | none, none => none
  | o1, o2 => some (o1.getD 0 + o2.getD 0)

theorem lookupC_addCounter {d : CMap T} (hd : NodupKeys d) (c : CMap T) (x : T) :
    lookupC (addCounter c d) x = addO (lookupC c x) (lookupC d x) := by
  induction d generalizing c with
  | nil => cases h : lookupC c x <;> simp [addCounter, lookupC, addO, h]
  | cons p rest ih =>
    obtain ⟨k, v⟩ := p
    rw [NodupKeys, List.map_cons, List.nodup_cons] at hd
    have hstep : addCounter c ((k, v) :: rest) = addCounter (incrBy c k v) rest := rfl
    rw [hstep, ih hd.2]
    by_cases hxk : x = k
    · subst hxk
      rw [lookupC_incrBy_self, lookupC_eq_none_of_not_mem hd.1]
      rw [lookupC, if_pos rfl]
      cases h : lookupC c x <;> simp [addO, cnt, h]
    · rw [lookupC_incrBy_ne c v hxk, lookupC, if_neg (Ne.symm hxk)]

/-! ## Claim C3 -/

/-- C3: `c + d` maps every key present in either operand to
`count_c(x) + count_d(x)` (absent read as `0`), every key of either
input appears in the output, and no other key does. -/
theorem C3_add_sums_counts (c d : CMap T) (hd : NodupKeys d) (x : T) :
    (((lookupC c x).isSome ∨ (lookupC d x).isSome) →
        lookupC (addCounter c d) x = some (cnt c x + cnt d x)) ∧
    ((lookupC c x = none ∧ lookupC d x = none) →
        lookupC (addCounter c d) x = none) := by
  rw [lookupC_addCounter hd c x]
  constructor
  · intro h
    cases h1 : lookupC c x with
    | none =>
      cases h2 : lookupC d x with
      | none => rw [h1, h2] at h; simp at h
      | some b => simp [addO, cnt, h1, h2]
    | some a => cases h2 : lookupC d x <;> simp [addO, cnt, h1, h2]
  · intro h
    rw [h.1, h.2]
    rfl

theorem C3_witness :
    NodupKeys [((1 : Nat), 3), (2, 4)] ∧
      ((((lookupC [((1 : Nat), 2)] 1).isSome ∨
          (lookupC [((1 : Nat), 3), (2, 4)] 1).isSome) →
        lookupC (addCounter [((1 : Nat), 2)] [(1, 3), (2, 4)]) 1 =
          some (cnt [((1 : Nat), 2)] 1 + cnt [((1 : Nat), 3), (2, 4)] 1)) ∧
       ((lookupC [((1 : Nat), 2)] 1 = none ∧
          lookupC [((1 : Nat), 3), (2, 4)] 1 = none) →
        lookupC (addCounter [((1 : Nat), 2)] [(1, 3), (2, 4)]) 1 = none)) :=
  ⟨by decide, C3_add_sums_counts [((1 : Nat), 2)] [(1, 3), (2, 4)] (by decide) 1⟩

/-! ## `orBy` / `bitor` lemmas -/

theorem lookupC_orBy_self (m : CMap T) (k : T) (v : Nat) :
    lookupC (orBy m k v) k = some (max (cnt m k) v) := by
  induction m with
  | nil => simp [orBy, lookupC, cnt]
  | cons p rest ih =>
    obtain ⟨a, w⟩ := p
    by_cases hak : a = k
    · subst hak
      simp [orBy, lookupC, cnt]
    · simp only [orBy, if_neg hak, lookupC, cnt]
      simpa [cnt, lookupC, if_neg hak] using ih

theorem lookupC_orBy_ne (m : CMap T) (v : Nat) {k x : T} (hxk : x ≠ k) :
    lookupC (orBy m k v) x = lookupC m x := by
  have hkx : k ≠ x := Ne.symm hxk
  induction m with
  | nil => simp [orBy, lookupC, hkx]
  | cons p rest ih =>
    obtain ⟨a, w⟩ := p
    by_cases hak : a = k
    · subst hak
      simp [orBy, lookupC, hkx]
    · by_cases hax : a = x
      · simp [orBy, if_neg hak, lookupC, hax, hxk]
      · simp [orBy, if_neg hak, lookupC, hax, ih]

/-- Pointwise count of a union: `none` only when both sides are absent. -/
def maxO : Option Nat → Option Nat → Option Nat
  | none, none => none
  | o1, o2 => some (max (o1.getD 0) (o2.getD 0))

theorem lookupC_bitorCounter {d : CMap T} (hd : NodupKeys d) (c : CMap T) (x : T) :
    lookupC (bitorCounter c d) x = maxO (lookupC c x) (lookupC d x) := by
  induction d generalizing c with
  | nil => cases h : lookupC c x <;> simp [bitorCounter, lookupC, maxO, h]
  | cons p rest ih =>
    obtain ⟨k, v⟩ := p
    rw [NodupKeys, List.map_cons, List.nodup_cons] at hd
    have hstep : bitorCounter c ((k, v) :: rest) = bitorCounter (orBy c k v) rest := rfl
    rw [hstep, ih hd.2]
    by_cases hxk : x = k
    · subst hxk
      rw [lookupC_orBy_self, lookupC_eq_none_of_not_mem hd.1]
      rw [lookupC, if_pos rfl]
      cases h : lookupC c x <;> simp [maxO, cnt, h]
    · rw [lookupC_orBy_ne c v hxk, lookupC, if_neg (Ne.symm hxk)]

/-! ## Claim C6 -/

/-- C6: `c | d` contains exactly the keys of either operand, mapping a
key present in both to the maximum of the two counts, and a key present
in only one operand to that operand's count unchanged. -/
theorem C6_bitor_max_union (c d : CMap T) (hd : NodupKeys d) (x : T) :
    (∀ a b, lookupC c x = some a → lookupC d x = some b →
        lookupC (bitorCounter c d) x = some (max a b)) ∧
    (lookupC d x = none → lookupC (bitorCounter c d) x = lookupC c x) ∧
    (lookupC c x = none → lookupC (bitorCounter c d) x = lookupC d x) := by
  rw [lookupC_bitorCounter hd c x]
  refine ⟨fun a b h1 h2 => ?_, fun h2 => ?_, fun h1 => ?_⟩
  · simp [maxO, h1, h2, cnt]
  · rw [h2]
    cases h1 : lookupC c x <;> simp [maxO]
  · rw [h1]
    cases h2 : lookupC d x <;> simp [maxO]

theorem C6_witness :
    NodupKeys [((2 : Nat), 5), (3, 7)] ∧
      ((∀ a b, lookupC [((1 : Nat), 3), (2, 2)] 2 = some a →
          lookupC [((2 : Nat), 5), (3, 7)] 2 = some b →
          lookupC (bitorCounter [((1 : Nat), 3), (2, 2)] [(2, 5), (3, 7)]) 2 =
            some (max a b)) ∧
       (lookupC [((2 : Nat), 5), (3, 7)] 2 = none →
          lookupC (bitorCounter [((1 : Nat), 3), (2, 2)] [(2, 5), (3, 7)]) 2 =
            lookupC [((1 : Nat), 3), (2, 2)] 2) ∧
       (lookupC [((1 : Nat), 3), (2, 2)] 2 = none →
          lookupC (bitorCounter [((1 : Nat), 3), (2, 2)] [(2, 5), (3, 7)]) 2 =
            lookupC [((2 : Nat), 5), (3, 7)] 2)) :=
  ⟨by decide, C6_bitor_max_union [((1 : Nat), 3), (2, 2)] [(2, 5), (3, 7)] (by decide) 2⟩

/-! ## `subBy` / `sub` lemmas -/

theorem lookupC_subBy_ne (m : CMap T) (v : Nat) {k x : T} (hxk : x ≠ k) :
    lookupC (subBy m k v) x = lookupC m x := by
  induction m with
  | nil => rfl
  | cons p rest ih =>
    obtain ⟨a, w⟩ := p
    by_cases hak : a = k
    · subst hak
      by_cases hvw : v ≤ w
      · by_cases hw : w - v = 0
        · simp [subBy, hvw, hw, lookupC, Ne.symm hxk]
        · simp [subBy, hvw, hw, lookupC, Ne.symm hxk]
      · simp [subBy, hvw, lookupC, Ne.symm hxk]
    · by_cases hax : a = x
      · simp [subBy, if_neg hak, lookupC, hax, hxk]
      · simp [subBy, if_neg hak, lookupC, hax, ih]

theorem lookupC_subBy_self {m : CMap T} (hm : NodupKeys m) (k : T) (v : Nat) :
    lookupC (subBy m k v) k =
      (lookupC m k).bind (fun w => if v < w then some (w - v) else none) := by
  induction m with
  | nil => rfl
  | cons p rest ih =>
    obtain ⟨a, w⟩ := p
    rw [NodupKeys, List.map_cons, List.nodup_cons] at hm
    by_cases hak : a = k
    · subst hak
      by_cases hvw : v ≤ w
      · by_cases hw : w - v = 0
        · have hle : ¬v < w := by omega
          simp [subBy, hvw, hw, lookupC, hle, lookupC_eq_none_of_not_mem hm.1]
        · have hlt : v < w := by omega
          simp [subBy, hvw, hw, lookupC, hlt]
      · have hle : ¬v < w := by omega
        simp [subBy, hvw, lookupC, hle, lookupC_eq_none_of_not_mem hm.1]
    · simp [subBy, if_neg hak, lookupC, hak, ih hm.2]

theorem map_fst_subBy_sublist (m : CMap T) (k : T) (v : Nat) :
    List.Sublist ((subBy m k v).map Prod.fst) (m.map Prod.fst) := by
  induction m with
  | nil => simp [subBy]
  | cons p rest ih =>
    obtain ⟨a, w⟩ := p
    by_cases hak : a = k
    · subst hak
      by_cases hvw : v ≤ w
      · by_cases hw : w - v = 0
        · simp only [subBy, if_pos rfl, if_pos hvw, if_pos hw, List.map_cons]
          exact List.Sublist.cons _ (List.Sublist.refl _)
        · simp only [subBy, if_pos rfl, if_pos hvw, if_neg hw, List.map_cons]
          exact List.Sublist.cons₂ _ (List.Sublist.refl _)
      · simp only [subBy, if_pos rfl, if_neg hvw, List.map_cons]
        exact List.Sublist.cons _ (List.Sublist.refl _)
    · simp only [subBy, if_neg hak, List.map_cons]
      exact List.Sublist.cons₂ _ ih

theorem nodupKeys_subBy {m : CMap T} (hm : NodupKeys m) (k : T) (v : Nat) :
    NodupKeys (subBy m k v) :=
  List.Nodup.sublist (map_fst_subBy_sublist m k v) hm

/-- Pointwise count of a clamped difference. -/
def subO : Option Nat → Option Nat → Option Nat
  | none, _ => none
  | some w, none => some w
  | some w, some v => if v < w then some (w - v) else none

theorem lookupC_subCounter {c d : CMap T} (hc : NodupKeys c)
    (hd : NodupKeys d) (x : T) :
    lookupC (subCounter c d) x = subO (lookupC c x) (lookupC d x) := by
  induction d generalizing c with
  | nil => cases h : lookupC c x <;> simp [subCounter, lookupC, subO, h]
  | cons p rest ih =>
    obtain ⟨k, v⟩ := p
    rw [NodupKeys, List.map_cons, List.nodup_cons] at hd
    have hstep : subCounter c ((k, v) :: rest) = subCounter (subBy c k v) rest := rfl
    rw [hstep, ih (nodupKeys_subBy hc k v) hd.2]
    by_cases hxk : x = k
    · subst hxk
      rw [lookupC_subBy_self hc x v, lookupC_eq_none_of_not_mem hd.1]
      rw [lookupC, if_pos rfl]
      cases h : lookupC c x with
      | none => rfl
      | some w =>
        by_cases hvw : v < w
        · simp [subO, hvw]
        · simp [subO, hvw]
    · rw [lookupC_subBy_ne c v hxk, lookupC, if_neg (Ne.symm hxk)]

/-! ## Claim C4 -/

/-- C4: `c - d` maps `x` to `count_c(x) - count_d(x)` when
`count_c(x) > count_d(x)`; when `count_d(x) ≥ count_c(x)` the key is
absent from the result; a key absent from `d` keeps its count from `c`;
a key absent from `c` is absent from the result. -/
theorem C4_sub_clamped_difference (c d : CMap T) (hc : NodupKeys c)
    (hd : NodupKeys d) (x : T) :
    (∀ a b, lookupC c x = some a → lookupC d x = some b → b < a →
        lookupC (subCounter c d) x = some (a - b)) ∧
    (∀ a b, lookupC c x = some a → lookupC d x = some b → a ≤ b →
        lookupC (subCounter c d) x = none) ∧
    (lookupC d x = none → lookupC (subCounter c d) x = lookupC c x) ∧
    (lookupC c x = none → lookupC (subCounter c d) x = none) := by
  rw [lookupC_subCounter hc hd x]
  refine ⟨fun a b h1 h2 hba => ?_, fun a b h1 h2 hab => ?_, fun h2 => ?_, fun h1 => ?_⟩
  · simp [subO, h1, h2, hba]
  · have hba : ¬b < a := by omega
    simp [subO, h1, h2, hba]
  · rw [h2]
    cases h1 : lookupC c x <;> simp [subO]
  · rw [h1]
    rfl

theorem C4_witness :
    NodupKeys [((1 : Nat), 3), (2, 1)] ∧ NodupKeys [((1 : Nat), 1), (2, 5)] ∧
      ((∀ a b, lookupC [((1 : Nat), 3), (2, 1)] 1 = some a →
          lookupC [((1 : Nat), 1), (2, 5)] 1 = some b → b < a →
          lookupC (subCounter [((1 : Nat), 3), (2, 1)] [(1, 1), (2, 5)]) 1 =
            some (a - b)) ∧
       (∀ a b, lookupC [((1 : Nat), 3), (2, 1)] 1 = some a →
          lookupC [((1 : Nat), 1), (2, 5)] 1 = some b → a ≤ b →
          lookupC (subCounter [((1 : Nat), 3), (2, 1)] [(1, 1), (2, 5)]) 1 = none) ∧
       (lookupC [((1 : Nat), 1), (2, 5)] 1 = none →
          lookupC (subCounter [((1 : Nat), 3), (2, 1)] [(1, 1), (2, 5)]) 1 =
            lookupC [((1 : Nat), 3), (2, 1)] 1) ∧
       (lookupC [((1 : Nat), 3), (2, 1)] 1 = none →
          lookupC (subCounter [((1 : Nat), 3), (2, 1)] [(1, 1), (2, 5)]) 1 = none)) :=
  ⟨by decide, by decide,
    C4_sub_clamped_difference [((1 : Nat), 3), (2, 1)] [(1, 1), (2, 5)]
      (by decide) (by decide) 1⟩

/-! ## `bitand` lemmas -/

/-- Pointwise count of an intersection: defined only on shared keys. -/
def minO : Option Nat → Option Nat → Option Nat
  | some a, some b => some (min a b)
  | _, _ => none

theorem lookupC_bitandCounter {c : CMap T} (hc : NodupKeys c)
    (d : CMap T) (x : T) :
    lookupC (bitandCounter c d) x = minO (lookupC c x) (lookupC d x) := by
  induction c with
  | nil => cases h : lookupC d x <;> simp [bitandCounter, lookupC, minO]
  | cons p rest ih =>
    obtain ⟨a, w⟩ := p
    rw [NodupKeys, List.map_cons, List.nodup_cons] at hc
    by_cases hda : (lookupC d a).isSome
    · have hstep : bitandCounter ((a, w) :: rest) d =
          (a, min w (cnt d a)) :: bitandCounter rest d := by
        simp [bitandCounter, List.filterMap_cons, hda]
      rw [hstep]
      by_cases hxa : x = a
      · subst hxa
        obtain ⟨b, hb⟩ := Option.isSome_iff_exists.mp hda
        simp [lookupC, hb, minO, cnt]
      · rw [lookupC, if_neg (Ne.symm hxa), ih hc.2, lookupC, if_neg (Ne.symm hxa)]
    · have hstep : bitandCounter ((a, w) :: rest) d = bitandCounter rest d := by
        simp [bitandCounter, List.filterMap_cons, hda]
      rw [hstep, ih hc.2]
      by_cases hxa : x = a
      · subst hxa
        rw [lookupC_eq_none_of_not_mem hc.1, lookupC, if_pos rfl]
        rw [Option.not_isSome_iff_eq_none] at hda
        rw [hda]
        rfl
      · rw [lookupC, if_neg (Ne.symm hxa)]

/-! ## Claim C5 -/

/-- C5: `c & d` contains exactly the keys present in both operands and
maps each to the minimum of the two counts; a key present in only one
operand (or neither) is absent from the result. -/
theorem C5_bitand_min_intersection (c d : CMap T) (hc : NodupKeys c) (x : T) :
    (∀ a b, lookupC c x = some a → lookupC d x = some b →
        lookupC (bitandCounter c d) x = some (min a b)) ∧
    ((lookupC c x = none ∨ lookupC d x = none) →
        lookupC (bitandCounter c d) x = none) := by
  rw [lookupC_bitandCounter hc d x]
  refine ⟨fun a b h1 h2 => ?_, fun h => ?_⟩
  · simp [minO, h1, h2]
  · rcases h with h | h
    · rw [h]
      rfl
    · rw [h]
      cases h1 : lookupC c x <;> rfl

theorem C5_witness :
    NodupKeys [((1 : Nat), 3), (2, 2)] ∧
      ((∀ a b, lookupC [((1 : Nat), 3), (2, 2)] 2 = some a →
          lookupC [((2 : Nat), 5), (3, 7)] 2 = some b →
          lookupC (bitandCounter [((1 : Nat), 3), (2, 2)] [(2, 5), (3, 7)]) 2 =
            some (min a b)) ∧
       ((lookupC [((1 : Nat), 3), (2, 2)] 2 = none ∨
          lookupC [((2 : Nat), 5), (3, 7)] 2 = none) →
          lookupC (bitandCounter [((1 : Nat), 3), (2, 2)] [(2, 5), (3, 7)]) 2 =
            none)) :=
  ⟨by decide,
    C5_bitand_min_intersection [((1 : Nat), 3), (2, 2)] [(2, 5), (3, 7)] (by decide) 2⟩

/-! ## Claim C8

The claim says `subtract` on an element whose current count is `0` or
which is absent leaves the mapping unchanged for that key.  The code
disagrees for a present zero-count entry (reachable through the public
`map` field): `subtract` skips the decrement (`*entry > 0` fails) but
still sets `remove = *entry == 0` and deletes the entry. -/

theorem subOne_of_lookup_none {m : CMap T} {k : T}
    (h : lookupC m k = none) : subOne m k = m := by
  induction m with
  | nil => rfl
  | cons p rest ih =>
    obtain ⟨a, v⟩ := p
    rw [lookupC] at h
    by_cases hak : a = k
    · rw [if_pos hak] at h
      exact absurd h (by simp)
    · rw [if_neg hak] at h
      rw [subOne, if_neg hak, ih h]

/-- C8 (counterexample): in the state `{0 ↦ 0}` the key `0` has
current count `0`, yet `subtract([0])` deletes the entry, changing the
mapping for that key from `some 0` to `none`. -/
theorem C8_counterexample :
    lookupC [((0 : Nat), 0)] 0 = some 0 ∧
      lookupC (subtractCounter [((0 : Nat), 0)] [0]) 0 = none :=
  ⟨rfl, rfl⟩

/-- C8 (amended): `subtract` on an absent element leaves the map
unchanged; on an element present with count `0` it deletes the
zero-count entry and changes no other key. -/
theorem C8_amended_zero_entry_removed (m : CMap T) (x : T) (hm : NodupKeys m) :
    (lookupC m x = none → subtractCounter m [x] = m) ∧
    (lookupC m x = some 0 →
      lookupC (subtractCounter m [x]) x = none ∧
      ∀ y, y ≠ x → lookupC (subtractCounter m [x]) y = lookupC m y) := by
  have hshape : subtractCounter m [x] = subOne m x := rfl
  rw [hshape]
  refine ⟨fun h => subOne_of_lookup_none h, fun h => ⟨?_, fun y hyx => ?_⟩⟩
  · rw [lookupC_subOne_self hm x, h]
    rfl
  · exact lookupC_subOne_ne m hyx

theorem C8_witness :
    NodupKeys [((1 : Nat), 0), (2, 3)] ∧
      ((lookupC [((1 : Nat), 0), (2, 3)] 1 = none →
          subtractCounter [((1 : Nat), 0), (2, 3)] [1] = [(1, 0), (2, 3)]) ∧
       (lookupC [((1 : Nat), 0), (2, 3)] 1 = some 0 →
          lookupC (subtractCounter [((1 : Nat), 0), (2, 3)] [1]) 1 = none ∧
          ∀ y, y ≠ 1 →
            lookupC (subtractCounter [((1 : Nat), 0), (2, 3)] [1]) y =
              lookupC [((1 : Nat), 0), (2, 3)] y)) :=
  ⟨by decide, C8_amended_zero_entry_removed [((1 : Nat), 0), (2, 3)] 1 (by decide)⟩

/-! ## Claim C9 -/

omit [DecidableEq T] in
theorem mcLE_trans (a b c : T × Nat) (hab : mcLE a b) (hbc : mcLE b c) :
    mcLE a c := by
  simp only [mcLE, decide_eq_true_eq] at *
  omega

omit [DecidableEq T] in
theorem mcLE_total (a b : T × Nat) : mcLE a b || mcLE b a := by
  simp only [mcLE, Bool.or_eq_true, decide_eq_true_eq]
  omega

omit [DecidableEq T] in
/-- C9: `most_common()` returns a sequence holding every entry of the
mapping exactly once (a permutation of the entry list), with counts in
non-increasing order.  The embedding is a pure function of the map, so
the Counter itself is untouched by construction. -/
theorem C9_most_common_descending (m : CMap T) :
    List.Perm (most_common m) m ∧
      List.Pairwise (fun p q : T × Nat => q.2 ≤ p.2) (most_common m) := by
  constructor
  · exact List.mergeSort_perm m mcLE
  · have h := List.sorted_mergeSort mcLE_trans mcLE_total m
    exact h.imp (fun hpq => by
      simpa only [mcLE, decide_eq_true_eq] using hpq)

/-! ## Claim C10

The two decrement sites in the source are `*entry -= 1` in
`Counter::subtract`, guarded by `*entry > 0`, and `*entry -= *value` in
`Sub::sub`, guarded by `*entry >= *value`.  `checkedSub` is `usize`
subtraction that reports underflow as `none`; running both operations
with it always succeeds, on every state, including states holding
zero-count entries. -/

/-- Underflow-detecting `usize` subtraction. -/
def checkedSub (a b : Nat) : Option Nat := if b ≤ a then some (a - b) else none

/-- `subOne` with the decrement done by `checkedSub`, following the
source branch structure: decrement only when `*entry > 0`, then remove
the entry when the count is `0`. -/
def subOneChecked : CMap T → T → Option (CMap T)
  | [], _ => some []
  | (a, v) :: rest, k =>
    if a = k then
      if 0 < v then
        (checkedSub v 1).map (fun w => if w = 0 then rest else (a, w) :: rest)
      else some rest
    else (subOneChecked rest k).map (fun r => (a, v) :: r)

/-- `subBy` with the decrement done by `checkedSub`, following the
source branch structure: decrement only when `*entry >= *value`. -/
def subByChecked : CMap T → T → Nat → Option (CMap T)
  | [], _, _ => some []
  | (a, w) :: rest, k, v =>
    if a = k then
      if v ≤ w then
        (checkedSub w v).map (fun u => if u = 0 then rest else (a, u) :: rest)
      else some rest
    else (subByChecked rest k v).map (fun r => (a, w) :: r)

def subtractCheckedCounter (m : CMap T) (s : List T) : Option (CMap T) :=
  s.foldlM subOneChecked m

def subCheckedCounter (c d : CMap T) : Option (CMap T) :=
  d.foldlM (fun acc p => subByChecked acc p.1 p.2) c

theorem subOneChecked_eq (m : CMap T) (k : T) :
    subOneChecked m k = some (subOne m k) := by
  induction m with
  | nil => rfl
  | cons p rest ih =>
    obtain ⟨a, v⟩ := p
    by_cases hak : a = k
    · rw [subOneChecked, if_pos hak, subOne, if_pos hak]
      by_cases hv : 0 < v
      · rw [if_pos hv, checkedSub, if_pos (show 1 ≤ v by omega)]
        by_cases hv1 : v - 1 = 0
        · simp [hv1]
        · simp [hv1]
      · have hv0 : v = 0 := by omega
        subst hv0
        simp
    · rw [subOneChecked, if_neg hak, subOne, if_neg hak, ih]
      rfl

theorem subByChecked_eq (m : CMap T) (k : T) (v : Nat) :
    subByChecked m k v = some (subBy m k v) := by
  induction m with
  | nil => rfl
  | cons p rest ih =>
    obtain ⟨a, w⟩ := p
    by_cases hak : a = k
    · rw [subByChecked, if_pos hak, subBy, if_pos hak]
      by_cases hvw : v ≤ w
      · rw [if_pos hvw, checkedSub, if_pos hvw, if_pos hvw]
        by_cases hw : w - v = 0
        · simp [hw]
        · simp [hw]
      · rw [if_neg hvw, if_neg hvw]
    · rw [subByChecked, if_neg hak, subBy, if_neg hak, ih]
      rfl

/-- C10: the guarded `usize` decrements in `subtract` and in the `-`
operator can never underflow: performed with underflow-detecting
subtraction they succeed on every input state, so both operations are
total. -/
theorem C10_decrements_never_underflow (m c d : CMap T) (s : List T) :
    subtractCheckedCounter m s = some (subtractCounter m s) ∧
      subCheckedCounter c d = some (subCounter c d) := by
  constructor
  · rw [subtractCheckedCounter, subtractCounter]
    induction s generalizing m with
    | nil => rfl
    | cons a s ih =>
      rw [List.foldlM_cons, subOneChecked_eq]
      simpa using ih (subOne m a)
  · rw [subCheckedCounter, subCounter]
    induction d generalizing c with
    | nil => rfl
    | cons p rest ih =>
      rw [List.foldlM_cons, subByChecked_eq]
      simpa using ih (subBy c p.1 p.2)

end CounterRs
